import Mathlib

/-!
Verification of the CrammAI client core: audio codec round-trip, gapless
playback scheduling, view/state-machine handlers, transcript accumulation,
live-session teardown, and the notes retry loop.  Each definition is a
shallow embedding of the corresponding function in `src/api.ts` or
`src/index.tsx`.
-/

namespace CrammAI

/-! ## Audio codec (`src/api.ts`: `createBlob`, `encode`, `decode`, `decodeAudioData`)

Samples are modelled as rationals; a byte is a `Nat` below 256.
`createBlob` stores `data[i] * 32768` into an `Int16Array`: the JS ToInt16
conversion truncates the float toward zero and wraps modulo 2^16 into the
signed 16-bit range.  The bytes of the little-endian `Int16Array` buffer
are base64-encoded (`btoa`); the inbound path base64-decodes (`atob`) and
reinterprets the bytes as little-endian int16, dividing by 32768. -/

/-- Truncation toward zero of a rational, as JS ToInt16 truncates a float. -/
def truncQ (x : ℚ) : ℤ := if 0 ≤ x then ⌊x⌋ else ⌈x⌉

/-- Wrap an integer into the signed 16-bit range, as JS ToInt16 does. -/
def toInt16 (n : ℤ) : ℤ :=
  let m := n % 65536
  if m < 32768 then m else m - 65536

/-- The per-sample outbound conversion of `createBlob`:
`int16[i] = data[i] * 32768` (truncate toward zero, wrap into int16). -/
def encodeSample (x : ℚ) : ℤ := toInt16 (truncQ (x * 32768))

/-- Little-endian bytes of an int16 value, as laid out in the
`Int16Array` buffer that `createBlob` feeds to `encode`. -/
def int16ToBytesLE (n : ℤ) : List ℕ :=
  let u := (n % 65536).toNat
  [u % 256, u / 256]

/-- Reinterpret two little-endian bytes as a signed 16-bit integer, as
`new Int16Array(data.buffer)` does in `decodeAudioData`. -/
def bytesToInt16LE (b0 b1 : ℕ) : ℤ :=
  let u : ℤ := b0 + 256 * b1
  if u < 32768 then u else u - 65536

/-- Group a byte list into little-endian int16 values; a trailing odd byte
is dropped, as the `Int16Array` view truncates to whole elements. -/
def bytesToInt16s : List ℕ → List ℤ
  | b0 :: b1 :: rest => bytesToInt16LE b0 b1 :: bytesToInt16s rest
  | _ => []

/-- A base64 output symbol: a 6-bit digit or the `=` padding character. -/
inductive B64 where
  | digit (n : ℕ)
  | pad
deriving DecidableEq, Repr

/-- Base64 encoding of a byte list (the effect of `btoa` on the binary
string built by `encode`): three bytes become four 6-bit digits, with
padding for a trailing group of one or two bytes. -/
def b64encode : List ℕ → List B64
  | [] => []
  | [a] => [.digit (a / 4), .digit (a % 4 * 16), .pad, .pad]
  | [a, b] => [.digit (a / 4), .digit (a % 4 * 16 + b / 16), .digit (b % 16 * 4), .pad]
  | a :: b :: c :: rest =>
      .digit (a / 4) :: .digit (a % 4 * 16 + b / 16) ::
      .digit (b % 16 * 4 + c / 64) :: .digit (c % 64) :: b64encode rest

/-- Base64 decoding of a symbol list (the effect of `atob` followed by the
byte extraction in `decode`). -/
def b64decode : List B64 → List ℕ
  | .digit w :: .digit x :: .pad :: .pad :: _ => [w * 4 + x / 16]
  | .digit w :: .digit x :: .digit y :: .pad :: _ =>
      [w * 4 + x / 16, x % 16 * 16 + y / 4]
  | .digit w :: .digit x :: .digit y :: .digit z :: rest =>
      (w * 4 + x / 16) :: (x % 16 * 16 + y / 4) :: (y % 4 * 64 + z) :: b64decode rest
  | _ => []

/-- The byte payload of `createBlob`: each float sample is converted to an
int16 and serialised little-endian. -/
def samplesToBytes (samples : List ℚ) : List ℕ :=
  (samples.map encodeSample).flatMap int16ToBytesLE

/-- `createBlob` on a frame of float samples: int16 conversion,
little-endian serialisation, base64 encoding. -/
def createBlobData (samples : List ℚ) : List B64 :=
  b64encode (samplesToBytes samples)

/-- `decodeAudioData` with one channel: bytes to little-endian int16
values, each divided by 32768. -/
def decodeAudioDataMono (bytes : List ℕ) : List ℚ :=
  (bytesToInt16s bytes).map (fun n : ℤ => (n : ℚ) / 32768)

/-- Full inbound chain on wire data: `decode` (base64 to bytes) then
`decodeAudioData` (bytes to float samples). -/
def audioRoundTrip (samples : List ℚ) : List ℚ :=
  decodeAudioDataMono (b64decode (createBlobData samples))

/-! ### Codec lemmas -/

theorem b64encode_decode (l : List ℕ) (h : ∀ b ∈ l, b < 256) :
    b64decode (b64encode l) = l := by
  match l with
  | [] => rfl
  | [a] =>
      have ha : a < 256 := h a (by simp)
      simp only [b64encode, b64decode, List.cons.injEq, and_true]
      omega
  | [a, b] =>
      have ha : a < 256 := h a (by simp)
      have hb : b < 256 := h b (by simp)
      simp only [b64encode, b64decode, List.cons.injEq, and_true]
      omega
  | a :: b :: c :: rest =>
      have ha : a < 256 := h a (by simp)
      have hb : b < 256 := h b (by simp)
      have hc : c < 256 := h c (by simp)
      have ih := b64encode_decode rest (fun x hx => h x (by simp [hx]))
      simp only [b64encode, b64decode, List.cons.injEq]
      exact ⟨by omega, by omega, by omega, ih⟩

theorem toInt16_mem_range (n : ℤ) : -32768 ≤ toInt16 n ∧ toInt16 n < 32768 := by
  unfold toInt16
  have h0 : 0 ≤ n % 65536 := Int.emod_nonneg n (by norm_num)
  have h1 : n % 65536 < 65536 := Int.emod_lt_of_pos n (by norm_num)
  simp only []
  split <;> omega

theorem toInt16_of_mem_range (n : ℤ) (h0 : -32768 ≤ n) (h1 : n < 32768) :
    toInt16 n = n := by
  unfold toInt16
  rcases le_or_lt 0 n with hn | hn
  · rw [Int.emod_eq_of_lt hn (by omega)]
    simp only []
    omega
  · have : n % 65536 = n + 65536 := by omega
    simp only [this]
    omega

theorem int16ToBytesLE_lt (n : ℤ) : ∀ b ∈ int16ToBytesLE n, b < 256 := by
  intro b hb
  unfold int16ToBytesLE at hb
  have h0 : 0 ≤ n % 65536 := Int.emod_nonneg n (by norm_num)
  have h1 : n % 65536 < 65536 := Int.emod_lt_of_pos n (by norm_num)
  have hu : (n % 65536).toNat < 65536 := by omega
  simp only [List.mem_cons, List.mem_singleton, List.not_mem_nil, or_false] at hb
  rcases hb with rfl | rfl <;> omega

theorem encodeSample_mem_range (x : ℚ) :
    -32768 ≤ encodeSample x ∧ encodeSample x < 32768 :=
  toInt16_mem_range (truncQ (x * 32768))

theorem bytesToInt16s_int16ToBytesLE_append (n : ℤ) (bs : List ℕ)
    (h0 : -32768 ≤ n) (h1 : n < 32768) :
    bytesToInt16s (int16ToBytesLE n ++ bs) = n :: bytesToInt16s bs := by
  have hl0 : 0 ≤ n % 65536 := Int.emod_nonneg n (by norm_num)
  have key : bytesToInt16LE ((n % 65536).toNat % 256) ((n % 65536).toNat / 256) = n := by
    simp only [bytesToInt16LE]
    have hudef : (((n % 65536).toNat : ℤ)) = n % 65536 := Int.toNat_of_nonneg hl0
    split <;> push_cast at hudef ⊢ <;> omega
  show bytesToInt16LE ((n % 65536).toNat % 256) ((n % 65536).toNat / 256) :: bytesToInt16s bs
      = n :: bytesToInt16s bs
  rw [key]

theorem samplesToBytes_lt (samples : List ℚ) :
    ∀ b ∈ samplesToBytes samples, b < 256 := by
  intro b hb
  unfold samplesToBytes at hb
  rw [List.mem_flatMap] at hb
  obtain ⟨n, _, hn⟩ := hb
  exact int16ToBytesLE_lt n b hn

theorem bytesToInt16s_samplesToBytes (samples : List ℚ) :
    bytesToInt16s (samplesToBytes samples) = samples.map encodeSample := by
  induction samples with
  | nil => rfl
  | cons x xs ih =>
      unfold samplesToBytes
      simp only [List.map_cons, List.flatMap_cons]
      rw [bytesToInt16s_int16ToBytesLE_append _ _
        (encodeSample_mem_range x).1 (encodeSample_mem_range x).2]
      unfold samplesToBytes at ih
      rw [ih]

theorem encodeSample_roundTrip_exact (samples : List ℚ) :
    audioRoundTrip samples = samples.map (fun x => ((encodeSample x : ℤ) : ℚ) / 32768) := by
  unfold audioRoundTrip createBlobData decodeAudioDataMono
  rw [b64encode_decode _ (samplesToBytes_lt samples), bytesToInt16s_samplesToBytes,
    List.map_map]
  rfl

theorem encodeSample_error_bound (x : ℚ) (h0 : -1 ≤ x) (h1 : x < 1) :
    |x - ((encodeSample x : ℤ) : ℚ) / 32768| ≤ 1 / 32768 := by
  have ht0 : (-32768 : ℚ) ≤ x * 32768 := by linarith
  have ht1 : x * 32768 < 32768 := by linarith
  have hrange : -32768 ≤ truncQ (x * 32768) ∧ truncQ (x * 32768) < 32768 := by
    unfold truncQ
    split
    · next hp =>
        constructor
        · have : (0:ℤ) ≤ ⌊x * 32768⌋ := Int.floor_nonneg.2 hp
          omega
        · have := Int.floor_le (x * 32768)
          have : (⌊x * 32768⌋ : ℚ) < 32768 := lt_of_le_of_lt (Int.floor_le _) ht1
          exact_mod_cast this
    · next hp =>
        constructor
        · have : (-32768 : ℚ) ≤ ⌈x * 32768⌉ := le_trans ht0 (Int.le_ceil _)
          exact_mod_cast this
        · have hc : ⌈x * 32768⌉ ≤ (0 : ℤ) := by
            rw [Int.ceil_le]
            push_cast
            linarith [le_of_lt (not_le.1 hp)]
          omega
  have hid : encodeSample x = truncQ (x * 32768) := by
    unfold encodeSample
    exact toInt16_of_mem_range _ hrange.1 hrange.2
  have herr : |x * 32768 - ((truncQ (x * 32768) : ℤ) : ℚ)| ≤ 1 := by
    unfold truncQ
    split
    · next hp =>
        have hle := Int.floor_le (x * 32768)
        have hlt := Int.lt_floor_add_one (x * 32768)
        rw [abs_le]
        constructor <;> linarith
    · next hp =>
        have hle := Int.le_ceil (x * 32768)
        have hlt := Int.ceil_lt_add_one (x * 32768)
        rw [abs_le]
        constructor <;> linarith
  rw [hid]
  have hscale : x - ((truncQ (x * 32768) : ℤ) : ℚ) / 32768 =
      (x * 32768 - ((truncQ (x * 32768) : ℤ) : ℚ)) / 32768 := by
    ring
  rw [hscale, abs_div]
  have h32 : |(32768 : ℚ)| = 32768 := by norm_num
  rw [h32]
  apply div_le_div_of_nonneg_right herr (by norm_num) |>.trans
  norm_num

/-- C1 (amended): for every sample sequence with each sample in the
half-open interval [-1, 1), encoding a frame with `createBlob` and
decoding it with `decode` plus `decodeAudioData` reproduces every sample
within one quantization step (each pairwise absolute difference is at
most 1/32768).  At exactly 1 the unclamped int16 conversion wraps. -/
theorem audioRoundTrip_within_quant_step (samples : List ℚ)
    (h : ∀ x ∈ samples, -1 ≤ x ∧ x < 1) :
    List.Forall₂ (fun x y => |x - y| ≤ 1 / 32768) samples (audioRoundTrip samples) := by
  rw [encodeSample_roundTrip_exact]
  rw [List.forall₂_map_right_iff]
  rw [List.forall₂_same]
  intro x hx
  exact encodeSample_error_bound x (h x hx).1 (h x hx).2

/-- C1 counterexample: the sample 1 lies in the claimed range [-1, 1],
but `createBlob` stores `1 * 32768 = 32768` which wraps to -32768 in the
`Int16Array`, so the round trip returns -1: an error of 2, far above one
quantization step. -/
theorem audioRoundTrip_fails_at_one :
    ((-1 : ℚ) ≤ 1 ∧ (1 : ℚ) ≤ 1) ∧
    audioRoundTrip [(1 : ℚ)] = [-1] ∧
    ¬ List.Forall₂ (fun x y => |x - y| ≤ 1 / 32768) [(1 : ℚ)] (audioRoundTrip [(1 : ℚ)]) := by
  have he : encodeSample 1 = -32768 := by
    unfold encodeSample truncQ toInt16
    norm_num
  have hrt : audioRoundTrip [(1 : ℚ)] = [-1] := by
    rw [encodeSample_roundTrip_exact]
    simp only [List.map_cons, List.map_nil, he]
    norm_num
  refine ⟨⟨by norm_num, le_refl 1⟩, hrt, ?_⟩
  rw [hrt]
  intro hcontra
  rcases hcontra with _ | ⟨hrel, -⟩
  norm_num at hrel

/-- Closed witness for the C1 round-trip theorem at the sample 1/2. -/
theorem audioRoundTrip_within_quant_step_witness :
    (∀ x ∈ [(1 : ℚ)/2], -1 ≤ x ∧ x < 1) ∧
    List.Forall₂ (fun x y => |x - y| ≤ 1 / 32768) [(1 : ℚ)/2]
      (audioRoundTrip [(1 : ℚ)/2]) := by
  constructor
  · intro x hx
    simp only [List.mem_singleton] at hx
    subst hx
    norm_num
  · exact audioRoundTrip_within_quant_step [(1 : ℚ)/2]
      (by intro x hx; simp only [List.mem_singleton] at hx; subst hx; norm_num)

/-! ## Playback scheduler (`src/index.tsx`: `playAudio`, `nextStartTimeRef`)

`playAudio` computes `startTime = max(ctx.currentTime, nextStartTimeRef)`,
starts the buffer there, and advances
`nextStartTimeRef = startTime + buffer.duration`.  The cursor is seeded
at 0.  An event is a pair (output-clock time at arrival, buffer duration). -/

/-- The start times `playAudio` computes for a sequence of arrival events,
threading the `nextStartTimeRef` cursor. -/
def scheduleStartsFrom (nextStart : ℚ) : List (ℚ × ℚ) → List ℚ
  | [] => []
  | (now, dur) :: rest =>
      max now nextStart :: scheduleStartsFrom (max now nextStart + dur) rest

/-- Start times for a full inbound sequence, cursor seeded at 0 as
`nextStartTimeRef = useRef(0)`. -/
def scheduleStarts (events : List (ℚ × ℚ)) : List ℚ :=
  scheduleStartsFrom 0 events

theorem scheduleStartsFrom_length (c : ℚ) (evs : List (ℚ × ℚ)) :
    (scheduleStartsFrom c evs).length = evs.length := by
  induction evs generalizing c with
  | nil => rfl
  | cons e rest ih =>
      obtain ⟨now, dur⟩ := e
      simp [scheduleStartsFrom, ih]

theorem scheduleStartsFrom_head_ge (c : ℚ) (e : ℚ × ℚ) (rest : List (ℚ × ℚ)) :
    c ≤ (scheduleStartsFrom c (e :: rest)).head! := by
  obtain ⟨now, dur⟩ := e
  simp only [scheduleStartsFrom, List.head!]
  exact le_max_right now c

theorem scheduleStartsFrom_ge_now (c : ℚ) (evs : List (ℚ × ℚ)) (i : ℕ)
    (hi : i < evs.length) (hi' : i < (scheduleStartsFrom c evs).length) :
    (evs.get ⟨i, hi⟩).1 ≤ (scheduleStartsFrom c evs).get ⟨i, hi'⟩ := by
  induction evs generalizing c i with
  | nil => exact absurd hi (by simp)
  | cons e rest ih =>
      obtain ⟨now, dur⟩ := e
      match i with
      | 0 => exact le_max_left now c
      | i + 1 =>
          simp only [scheduleStartsFrom, List.get]
          exact ih _ _ (by simpa using hi) (by simpa [scheduleStartsFrom] using hi')

theorem scheduleStartsFrom_gap (c : ℚ) (evs : List (ℚ × ℚ)) (i : ℕ)
    (hi : i < evs.length)
    (h1 : i < (scheduleStartsFrom c evs).length)
    (h2 : i + 1 < (scheduleStartsFrom c evs).length) :
    (scheduleStartsFrom c evs).get ⟨i, h1⟩ + (evs.get ⟨i, hi⟩).2
      ≤ (scheduleStartsFrom c evs).get ⟨i + 1, h2⟩ := by
  induction evs generalizing c i with
  | nil => exact absurd hi (by simp)
  | cons e rest ih =>
      obtain ⟨now, dur⟩ := e
      match i with
      | 0 =>
          match rest with
          | [] =>
              exact absurd h2 (by simp [scheduleStartsFrom])
          | r :: rrest =>
              obtain ⟨rnow, rdur⟩ := r
              simp only [scheduleStartsFrom, List.get]
              exact le_max_right rnow (max now c + dur)
      | i + 1 =>
          simp only [scheduleStartsFrom, List.get]
          exact ih _ _ (by simpa using hi)
            (by simpa [scheduleStartsFrom] using h1)
            (by simpa [scheduleStartsFrom] using h2)

/-- C2: with the cursor seeded at 0, each buffer scheduled at
`max(currentOutputClockTime, nextStartTime)` and the cursor advanced by
the buffer duration, the computed start times (for nonnegative buffer
durations) are one per event, each at least the output clock at arrival,
each at least the previous start plus the previous duration, and
non-decreasing. -/
theorem playAudio_scheduling_invariants (events : List (ℚ × ℚ))
    (hd : ∀ e ∈ events, 0 ≤ e.2) :
    (scheduleStarts events).length = events.length ∧
    (∀ i (hi : i < events.length) (hi' : i < (scheduleStarts events).length),
      (events.get ⟨i, hi⟩).1 ≤ (scheduleStarts events).get ⟨i, hi'⟩) ∧
    (∀ i (hi : i < events.length)
        (h1 : i < (scheduleStarts events).length)
        (h2 : i + 1 < (scheduleStarts events).length),
      (scheduleStarts events).get ⟨i, h1⟩ + (events.get ⟨i, hi⟩).2
        ≤ (scheduleStarts events).get ⟨i + 1, h2⟩) ∧
    (∀ i (_hi : i < events.length)
        (h1 : i < (scheduleStarts events).length)
        (h2 : i + 1 < (scheduleStarts events).length),
      (scheduleStarts events).get ⟨i, h1⟩ ≤ (scheduleStarts events).get ⟨i + 1, h2⟩) := by
  refine ⟨scheduleStartsFrom_length 0 events,
    fun i hi hi' => scheduleStartsFrom_ge_now 0 events i hi hi',
    fun i hi h1 h2 => scheduleStartsFrom_gap 0 events i hi h1 h2,
    fun i hi h1 h2 => ?_⟩
  have hgap := scheduleStartsFrom_gap 0 events i hi h1 h2
  have hdur : 0 ≤ (events.get ⟨i, hi⟩).2 := hd _ (events.get_mem _ hi)
  calc (scheduleStarts events).get ⟨i, h1⟩
      ≤ (scheduleStarts events).get ⟨i, h1⟩ + (events.get ⟨i, hi⟩).2 := by linarith
    _ ≤ (scheduleStarts events).get ⟨i + 1, h2⟩ := hgap

/-- Closed witness for the C2 scheduler theorem on two concrete buffers:
durations 1 and 2 arriving at clock times 5 and 3. -/
theorem playAudio_scheduling_invariants_witness :
    (∀ e ∈ [((5 : ℚ), (1 : ℚ)), ((3 : ℚ), (2 : ℚ))], 0 ≤ e.2) ∧
    (scheduleStarts [((5 : ℚ), (1 : ℚ)), ((3 : ℚ), (2 : ℚ))]).length = 2 := by
  have h := playAudio_scheduling_invariants [((5 : ℚ), (1 : ℚ)), ((3 : ℚ), (2 : ℚ))]
    (by decide)
  exact ⟨by decide, h.1⟩

/-! ## View state machine (`src/index.tsx`: `App` component state and handlers)

The `App` component's `useState` hooks form the application state; each
handler is embedded as a pure state transformer.  Collaborator calls
(`apiGenerateStudyPlan`, `apiGenerateStudyNotes`) are modelled by passing
their outcome as a parameter. -/

inductive View where
  | home | upload | loading | results | study | quiz | quizSummary
deriving DecidableEq, Repr

inductive Mode where
  | calm | warn | zoom
deriving DecidableEq, Repr

structure Topic where
  topic : String
  reason : String
  key_points : List String
  notes : Option String
deriving DecidableEq, Repr

structure AnalysisResult where
  study_these : List Topic
deriving DecidableEq, Repr

structure QuizQuestion where
  question : String
  options : List String
  correct_answer : String
  explanation : String
deriving DecidableEq, Repr

structure QuizSummaryState where
  score : ℕ
  total : ℕ
  reflection : String
deriving DecidableEq, Repr

structure AppState where
  view : View
  mode : Option Mode
  files : List (Option String)
  error : Option String
  analysis : Option AnalysisResult
  currentTopic : Option Topic
  quizQuestions : Option (List QuizQuestion)
  quizSummary : Option QuizSummaryState
  isTutorActive : Bool
  highlightedTopicName : Option String
deriving DecidableEq, Repr

/-- `handleReset`: every state hook back to its initial value. -/
def handleReset (_s : AppState) : AppState :=
  { view := .home, mode := none, files := [none, none, none], error := none,
    analysis := none, currentTopic := none, quizQuestions := none,
    quizSummary := none, isTutorActive := false, highlightedTopicName := none }

/-- `handleBackToResults`: remember the highlighted topic, go to results,
clear the current topic and quiz questions.  Note that it touches neither
`quizSummary` nor `isTutorActive`. -/
def handleBackToResults (s : AppState) : AppState :=
  { s with highlightedTopicName := s.currentTopic.map Topic.topic,
           view := .results, currentTopic := none, quizQuestions := none }

/-- The render condition of the tutor overlay:
`isTutorActive && currentTopic && <LiveTutorView .../>`. -/
def tutorOverlayVisible (s : AppState) : Bool :=
  s.isTutorActive && s.currentTopic.isSome

/-- `updateTopicInList`: replace the topic with matching name in the
analysis (keeping `null` analysis at `null`), and refresh `currentTopic`
when it carries the same name. -/
def updateTopicInList (u : Topic) (s : AppState) : AppState :=
  { s with
    analysis :=
      match s.analysis with
      | none => none
      | some a => some ⟨a.study_these.map (fun t => if t.topic = u.topic then u else t)⟩,
    currentTopic :=
      match s.currentTopic with
      | none => none
      | some t => if t.topic = u.topic then some u else some t }

/-- The non-null upload slots, as `files.filter(f => f !== null)`. -/
def validFiles (files : List (Option String)) : List String :=
  files.filterMap id

/-- The error banner text set when plan generation fails (contractions
spelled out). -/
def planErrorMessage : String :=
  "Sorry, I could not generate a study plan. The AI might be busy or an error occurred. Please try again."

/-- The per-topic error marker merged when notes generation fails. -/
def notesErrorMessage : String :=
  "Error: Could not generate study notes. Please try again."

/-- `handleGeneratePlan`, synchronous part: guard on empty selection or
missing mode, then on success show results with the fresh analysis, on
failure return to upload with the error banner.  The notes fan-out is
modelled separately by `applyCompletion`. -/
def handleGeneratePlan (s : AppState) (outcome : Except Unit AnalysisResult) : AppState :=
  if validFiles s.files = [] ∨ s.mode = none then s
  else
    match outcome with
    | .ok a => { s with error := none, analysis := some a, view := .results }
    | .error _ => { s with error := some planErrorMessage, view := .upload }

/-- Outcome of one per-topic notes-generation task. -/
inductive NotesOutcome where
  | success (notes : String)
  | failure
deriving DecidableEq, Repr

/-- The topic merged back by a completing task: `{...topic, notes}` on
success, `{...topic, notes: <error marker>}` on failure; `topic` is the
topic object captured at launch. -/
def mergeNotes (t : Topic) (o : NotesOutcome) : Topic :=
  match o with
  | .success n => { t with notes := some n }
  | .failure => { t with notes := some notesErrorMessage }

/-- One task completion landing on the shared state. -/
def applyCompletion (s : AppState) (e : Topic × NotesOutcome) : AppState :=
  updateTopicInList (mergeNotes e.1 e.2) s

/-- A sequence of task completions, in arrival order. -/
def runCompletions (s : AppState) (order : List (Topic × NotesOutcome)) : AppState :=
  order.foldl applyCompletion s

/-! ### C3: per-topic fan-out is order independent -/

/-- C3: with three distinctly named topics in the freshly generated plan,
task 2 failing and tasks 1 and 3 succeeding, every one of the six
completion orders leaves topics 1 and 3 with their notes and topic 2 with
the error marker. -/
theorem notes_fanout_order_independent (t1 t2 t3 : Topic) (n1 n3 : String) (s : AppState)
    (hs : s.analysis = some ⟨[t1, t2, t3]⟩)
    (h12 : t1.topic ≠ t2.topic) (h13 : t1.topic ≠ t3.topic) (h23 : t2.topic ≠ t3.topic)
    (order : List (Topic × NotesOutcome))
    (hord : order ∈ [
      [(t1, NotesOutcome.success n1), (t2, NotesOutcome.failure), (t3, NotesOutcome.success n3)],
      [(t1, NotesOutcome.success n1), (t3, NotesOutcome.success n3), (t2, NotesOutcome.failure)],
      [(t2, NotesOutcome.failure), (t1, NotesOutcome.success n1), (t3, NotesOutcome.success n3)],
      [(t2, NotesOutcome.failure), (t3, NotesOutcome.success n3), (t1, NotesOutcome.success n1)],
      [(t3, NotesOutcome.success n3), (t1, NotesOutcome.success n1), (t2, NotesOutcome.failure)],
      [(t3, NotesOutcome.success n3), (t2, NotesOutcome.failure), (t1, NotesOutcome.success n1)]]) :
    (runCompletions s order).analysis =
      some ⟨[{ t1 with notes := some n1 },
             { t2 with notes := some notesErrorMessage },
             { t3 with notes := some n3 }]⟩ := by
  simp only [List.mem_cons, List.not_mem_nil, or_false] at hord
  rcases hord with rfl | rfl | rfl | rfl | rfl | rfl
  all_goals simp [runCompletions, applyCompletion, updateTopicInList, mergeNotes, hs,
    h12, h13, h23, Ne.symm h12, Ne.symm h13, Ne.symm h23]

/-- A concrete three-topic plan state used by the closed witnesses. -/
def demoTopic1 : Topic := ⟨"Alpha", "core chapter", ["a"], none⟩

def demoTopic2 : Topic := ⟨"Beta", "seen in exam", ["b"], none⟩

def demoTopic3 : Topic := ⟨"Gamma", "quick win", ["c"], none⟩

def demoPlanState : AppState :=
  { view := .results, mode := some .warn, files := [some "syllabus.pdf", none, none],
    error := none, analysis := some ⟨[demoTopic1, demoTopic2, demoTopic3]⟩,
    currentTopic := none, quizQuestions := none, quizSummary := none,
    isTutorActive := false, highlightedTopicName := none }

/-- Closed witness for C3 at one concrete interleaving (task 3 first,
then the failing task 2, then task 1). -/
theorem notes_fanout_order_independent_witness :
    (runCompletions demoPlanState
      [(demoTopic3, NotesOutcome.success "g notes"),
       (demoTopic2, NotesOutcome.failure),
       (demoTopic1, NotesOutcome.success "a notes")]).analysis =
      some ⟨[{ demoTopic1 with notes := some "a notes" },
             { demoTopic2 with notes := some notesErrorMessage },
             { demoTopic3 with notes := some "g notes" }]⟩ :=
  notes_fanout_order_independent demoTopic1 demoTopic2 demoTopic3 "a notes" "g notes"
    demoPlanState rfl (by decide) (by decide) (by decide) _ (by simp)

/-! ### C4: the back-to-results transition -/

/-- C4 (amended): `handleBackToResults` moves to the results view, clears
the current topic and the quiz questions (per-question answers and the
index live inside the quiz page component and vanish with it), and leaves
the analysis untouched; the tutor overlay can no longer render because the
current topic is cleared, but the `isTutorActive` flag itself is left
unchanged. -/
theorem handleBackToResults_clears_scratch (s : AppState) :
    (handleBackToResults s).view = .results ∧
    (handleBackToResults s).currentTopic = none ∧
    (handleBackToResults s).quizQuestions = none ∧
    (handleBackToResults s).analysis = s.analysis ∧
    tutorOverlayVisible (handleBackToResults s) = false ∧
    (handleBackToResults s).isTutorActive = s.isTutorActive := by
  simp [handleBackToResults, tutorOverlayVisible]

/-- A study-page state with the tutor overlay flag set. -/
def tutorOnState : AppState :=
  { demoPlanState with
    view := .study
    currentTopic := some demoTopic1
    isTutorActive := true }

/-- C4 counterexample: from a study page with the tutor flag on, the back
transition leaves `isTutorActive` at `true`, so the claim that the
tutor-overlay-active flag is cleared fails on the code. -/
theorem handleBackToResults_keeps_tutor_flag :
    tutorOnState.isTutorActive = true ∧
    (handleBackToResults tutorOnState).isTutorActive = true := by
  constructor <;> rfl

/-! ### C5: full reset and stale task results -/

/-- C5 (amended): `handleReset` clears the analysis, current topic, quiz
state and live-session flag, and a stale task completion that lands while
this cleared state persists is a no-op: `updateTopicInList` keeps a `null`
analysis and a `null` current topic.  (Without generation tagging this
protection does not extend past the next plan generation; see the
counterexample.) -/
theorem handleReset_clears_and_stale_noop (s : AppState) (u : Topic) :
    (handleReset s).analysis = none ∧
    (handleReset s).currentTopic = none ∧
    (handleReset s).quizQuestions = none ∧
    (handleReset s).quizSummary = none ∧
    (handleReset s).isTutorActive = false ∧
    updateTopicInList u (handleReset s) = handleReset s := by
  refine ⟨rfl, rfl, rfl, rfl, rfl, rfl⟩

/-- The old generation's topic as captured by its still-running task. -/
def staleCapturedTopic : Topic := ⟨"Alpha", "core chapter", ["a"], none⟩

/-- The same-named topic of the next generation's plan. -/
def freshTopic : Topic := ⟨"Alpha", "new emphasis this term", ["a2"], none⟩

/-- State after a full reset followed by a new mode/file selection and a
successful second plan generation containing `freshTopic`. -/
def secondPlanState : AppState :=
  handleGeneratePlan
    { handleReset demoPlanState with
      mode := some Mode.calm
      files := [some "notes.pdf", none, none] }
    (.ok ⟨[freshTopic]⟩)

/-- C5 counterexample: a stale notes result from the superseded generation
arriving after the subsequent plan generation is not a no-op: it replaces
the fresh topic with the old generation's captured topic plus its notes. -/
theorem stale_completion_after_new_plan_lands :
    secondPlanState.analysis = some ⟨[freshTopic]⟩ ∧
    (applyCompletion secondPlanState
        (staleCapturedTopic, NotesOutcome.success "stale notes")).analysis ≠
      secondPlanState.analysis ∧
    (applyCompletion secondPlanState
        (staleCapturedTopic, NotesOutcome.success "stale notes")).analysis =
      some ⟨[{ staleCapturedTopic with notes := some "stale notes" }]⟩ := by
  refine ⟨by decide, by decide, by decide⟩

/-! ### C9: plan generation failure handling -/

/-- C9: with at least one selected file and a chosen mode, a failing plan
generation returns to the upload view with the error banner set and the
upload slots untouched; a successful one moves to results with the fresh
analysis, also leaving the slots untouched. -/
theorem handleGeneratePlan_error_handling (s : AppState) (a : AnalysisResult)
    (hf : validFiles s.files ≠ []) (hm : s.mode ≠ none) :
    (handleGeneratePlan s (.error ())).view = .upload ∧
    (handleGeneratePlan s (.error ())).error = some planErrorMessage ∧
    (handleGeneratePlan s (.error ())).files = s.files ∧
    (handleGeneratePlan s (.error ())).analysis = s.analysis ∧
    (handleGeneratePlan s (.ok a)).view = .results ∧
    (handleGeneratePlan s (.ok a)).analysis = some a ∧
    (handleGeneratePlan s (.ok a)).files = s.files := by
  have hguard : ¬ (validFiles s.files = [] ∨ s.mode = none) := by
    rintro (h | h)
    · exact hf h
    · exact hm h
  simp [handleGeneratePlan, hguard]

/-- An upload-view state with one selected file and a chosen mode. -/
def demoUploadState : AppState :=
  { view := .upload, mode := some .zoom, files := [some "syllabus.pdf", none, none],
    error := none, analysis := none, currentTopic := none, quizQuestions := none,
    quizSummary := none, isTutorActive := false, highlightedTopicName := none }

/-- Closed witness for C9 at a concrete upload state with one file. -/
theorem handleGeneratePlan_error_handling_witness :
    validFiles demoUploadState.files ≠ [] ∧ demoUploadState.mode ≠ none ∧
    (handleGeneratePlan demoUploadState (.error ())).view = .upload ∧
    (handleGeneratePlan demoUploadState (.ok ⟨[demoTopic1]⟩)).view = .results :=
  have h := handleGeneratePlan_error_handling demoUploadState ⟨[demoTopic1]⟩
    (by decide) (by decide)
  ⟨by decide, by decide, h.1, h.2.2.2.2.1⟩

/-! ## Transcript accumulator (`src/index.tsx`: `processTranscription`)

Text is modelled as `List Char`, so that JS `String.prototype.trim` is an
explicit function.  A transcript message keeps its role and text (the JS
`id` field is only a render key).  Each incoming `LiveServerMessage`
carries an optional input-transcription fragment, an optional
output-transcription fragment and the turn-complete flag; JS truthiness
makes an empty-string fragment inert. -/

abbrev Str := List Char

inductive TRole where
  | user | model | status
deriving DecidableEq, Repr

structure TranscriptMessage where
  role : TRole
  text : Str
deriving DecidableEq, Repr

structure LiveMsg where
  inputText : Option Str
  outputText : Option Str
  turnComplete : Bool
deriving DecidableEq, Repr

structure TranscriptState where
  transcript : List TranscriptMessage
  currentInput : Str
  currentOutput : Str
deriving DecidableEq, Repr

/-- JS whitespace for `trim`. -/
def wsChar (c : Char) : Bool := c.isWhitespace

/-- JS `String.prototype.trim`: strip leading and trailing whitespace. -/
def trimWS (s : Str) : Str :=
  ((s.dropWhile wsChar).reverse.dropWhile wsChar).reverse

/-- The shared update shape of both fragment branches: if the most recent
message has the given role, replace its text with the full accumulator
(`[...prev.slice(0, -1), updatedLast]`); otherwise append a new message
seeded with the accumulator. -/
def pushRole (l : List TranscriptMessage) (r : TRole) (acc : Str) : List TranscriptMessage :=
  match l.getLast? with
  | some last =>
      if last.role = r then l.dropLast ++ [{ last with text := acc }]
      else l ++ [⟨r, acc⟩]
  | none => l ++ [⟨r, acc⟩]

/-- The input-fragment branch of `processTranscription`. -/
def applyInput (s : TranscriptState) (c : Str) : TranscriptState :=
  { s with currentInput := s.currentInput ++ c,
           transcript := pushRole s.transcript .user (s.currentInput ++ c) }

/-- The output-fragment branch of `processTranscription`. -/
def applyOutput (s : TranscriptState) (c : Str) : TranscriptState :=
  { s with currentOutput := s.currentOutput ++ c,
           transcript := pushRole s.transcript .model (s.currentOutput ++ c) }

/-- The turn-complete cleanup: remove the trailing user message when it is
whitespace-only. -/
def pruneEmptyUserIf (l : List TranscriptMessage) : List TranscriptMessage :=
  match l.getLast? with
  | some last =>
      if last.role = .user ∧ trimWS last.text = [] then l.dropLast else l
  | none => l

/-- `if (inputChunk) {...}`: a missing or empty fragment is inert. -/
def inputStep (s : TranscriptState) (inp : Option Str) : TranscriptState :=
  match inp with
  | some c => if c = [] then s else applyInput s c
  | none => s

/-- `if (outputChunk) {...}`: a missing or empty fragment is inert. -/
def outputStep (s : TranscriptState) (out : Option Str) : TranscriptState :=
  match out with
  | some c => if c = [] then s else applyOutput s c
  | none => s

/-- `processTranscription`: apply the input fragment, then the output
fragment, then turn-complete cleanup (prune an empty user bubble when the
input accumulator is whitespace-only, then reset both accumulators). -/
def processTranscription (s : TranscriptState) (m : LiveMsg) : TranscriptState :=
  let s1 := inputStep s m.inputText
  let s2 := outputStep s1 m.outputText
  if m.turnComplete then
    { transcript :=
        if trimWS s2.currentInput = [] then pruneEmptyUserIf s2.transcript
        else s2.transcript,
      currentInput := [], currentOutput := [] }
  else s2

/-- Process a stream of live messages in arrival order. -/
def processStream (s : TranscriptState) (ms : List LiveMsg) : TranscriptState :=
  ms.foldl processTranscription s

/-- No two adjacent messages are both user messages: user bubbles are only
appended after a non-user message and only the trailing one is rewritten. -/
def userAdjFree (l : List TranscriptMessage) : Prop :=
  List.Chain' (fun a b => ¬(a.role = TRole.user ∧ b.role = TRole.user)) l

/-- The transcript does not end in a whitespace-only user message. -/
def noTrailingWsUser (l : List TranscriptMessage) : Prop :=
  ∀ m, l.getLast? = some m → ¬(m.role = TRole.user ∧ trimWS m.text = [])

/-! ### Whitespace lemmas -/

theorem trimWS_eq_nil_iff (s : Str) : trimWS s = [] ↔ ∀ c ∈ s, wsChar c = true := by
  unfold trimWS
  constructor
  · intro h c hc
    rw [List.reverse_eq_nil_iff, List.dropWhile_eq_nil_iff] at h
    have hsplit := List.takeWhile_append_dropWhile (p := wsChar) (l := s)
    rw [← hsplit] at hc
    rcases List.mem_append.1 hc with hc | hc
    · exact List.mem_takeWhile_imp hc
    · exact h c (List.mem_reverse.2 hc)
  · intro h
    have h1 : s.dropWhile wsChar = [] := List.dropWhile_eq_nil_iff.2 h
    simp [h1]

theorem trimWS_append_nil (a b : Str) (ha : trimWS a = []) (hb : trimWS b = []) :
    trimWS (a ++ b) = [] := by
  rw [trimWS_eq_nil_iff] at ha hb ⊢
  intro c hc
  rcases List.mem_append.1 hc with hc | hc
  · exact ha c hc
  · exact hb c hc

/-! ### Adjacency-invariant lemmas -/

theorem userAdjFree_append (l : List TranscriptMessage) (m : TranscriptMessage)
    (hinv : userAdjFree l)
    (hok : ∀ x, l.getLast? = some x → ¬(x.role = TRole.user ∧ m.role = TRole.user)) :
    userAdjFree (l ++ [m]) := by
  rw [userAdjFree, List.chain'_append]
  refine ⟨hinv, List.chain'_singleton m, ?_⟩
  intro x hx y hy
  simp only [List.head?_cons, Option.mem_def, Option.some.injEq] at hy
  subst hy
  exact hok x hx

theorem userAdjFree_replaceLast (l : List TranscriptMessage) (last m : TranscriptMessage)
    (hl : l.getLast? = some last) (hrole : m.role = last.role)
    (hinv : userAdjFree l) :
    userAdjFree (l.dropLast ++ [m]) := by
  have hdecomp : l.dropLast ++ [last] = l := List.dropLast_append_getLast? last hl
  rw [userAdjFree, ← hdecomp, List.chain'_append] at hinv
  rw [userAdjFree, List.chain'_append]
  refine ⟨hinv.1, List.chain'_singleton m, ?_⟩
  intro x hx y hy
  simp only [List.head?_cons, Option.mem_def, Option.some.injEq] at hy
  subst hy
  intro hcon
  exact hinv.2.2 x hx last (by simp) ⟨hcon.1, by rw [← hrole]; exact hcon.2⟩

theorem userAdjFree_pushRole (l : List TranscriptMessage) (r : TRole) (acc : Str)
    (hinv : userAdjFree l) : userAdjFree (pushRole l r acc) := by
  cases hl : l.getLast? with
  | none =>
      have hnil : l = [] := List.getLast?_eq_none_iff.1 hl
      subst hnil
      simp only [pushRole, List.getLast?_nil, List.nil_append]
      exact List.chain'_singleton _
  | some last =>
      by_cases hr : last.role = r
      · simp only [pushRole, hl, if_pos hr]
        exact userAdjFree_replaceLast l last _ hl rfl hinv
      · simp only [pushRole, hl, if_neg hr]
        refine userAdjFree_append l _ hinv ?_
        intro x hx hcon
        rw [hl] at hx
        cases hx
        exact hr (hcon.1.trans hcon.2.symm)

theorem userAdjFree_applyInput (s : TranscriptState) (c : Str)
    (hinv : userAdjFree s.transcript) : userAdjFree (applyInput s c).transcript :=
  userAdjFree_pushRole s.transcript .user _ hinv

theorem userAdjFree_applyOutput (s : TranscriptState) (c : Str)
    (hinv : userAdjFree s.transcript) : userAdjFree (applyOutput s c).transcript :=
  userAdjFree_pushRole s.transcript .model _ hinv

theorem userAdjFree_dropLast_not_user (l : List TranscriptMessage)
    (last : TranscriptMessage) (hl : l.getLast? = some last)
    (hu : last.role = TRole.user) (hinv : userAdjFree l) :
    ∀ a, l.dropLast.getLast? = some a → a.role ≠ TRole.user := by
  intro a ha hau
  have hdecomp : l.dropLast ++ [last] = l := List.dropLast_append_getLast? last hl
  rw [userAdjFree, ← hdecomp, List.chain'_append] at hinv
  exact hinv.2.2 a ha last (by simp) ⟨hau, hu⟩

/-! ### Step lemmas -/

theorem userAdjFree_inputStep (s : TranscriptState) (inp : Option Str)
    (hinv : userAdjFree s.transcript) : userAdjFree (inputStep s inp).transcript := by
  cases inp with
  | none => exact hinv
  | some c =>
      by_cases hc : c = []
      · simp only [inputStep, if_pos hc]
        exact hinv
      · simp only [inputStep, if_neg hc]
        exact userAdjFree_applyInput s c hinv

theorem userAdjFree_outputStep (s : TranscriptState) (out : Option Str)
    (hinv : userAdjFree s.transcript) : userAdjFree (outputStep s out).transcript := by
  cases out with
  | none => exact hinv
  | some c =>
      by_cases hc : c = []
      · simp only [outputStep, if_pos hc]
        exact hinv
      · simp only [outputStep, if_neg hc]
        exact userAdjFree_applyOutput s c hinv

theorem inputStep_trim (s : TranscriptState) (inp : Option Str)
    (hacc : trimWS s.currentInput = [])
    (hin : ∀ c, inp = some c → trimWS c = []) :
    trimWS (inputStep s inp).currentInput = [] := by
  cases inp with
  | none => exact hacc
  | some c =>
      by_cases hc : c = []
      · simp only [inputStep, if_pos hc]
        exact hacc
      · simp only [inputStep, if_neg hc, applyInput]
        exact trimWS_append_nil _ _ hacc (hin c rfl)

theorem outputStep_currentInput (s : TranscriptState) (out : Option Str) :
    (outputStep s out).currentInput = s.currentInput := by
  cases out with
  | none => rfl
  | some c =>
      by_cases hc : c = []
      · simp only [outputStep, if_pos hc]
      · simp only [outputStep, if_neg hc, applyOutput]

theorem noTrailingWsUser_pruneEmptyUserIf (l : List TranscriptMessage)
    (hinv : userAdjFree l) : noTrailingWsUser (pruneEmptyUserIf l) := by
  cases hl : l.getLast? with
  | none =>
      intro m hm
      simp only [pruneEmptyUserIf, hl] at hm
      cases hm
  | some last =>
      by_cases hcond : last.role = TRole.user ∧ trimWS last.text = []
      · intro m hm hbad
        simp only [pruneEmptyUserIf, hl, if_pos hcond] at hm
        exact userAdjFree_dropLast_not_user l last hl hcond.1 hinv m hm hbad.1
      · intro m hm
        simp only [pruneEmptyUserIf, hl, if_neg hcond] at hm
        cases hm
        exact hcond

/-- C6: on any transcript without adjacent user bubbles, an event carrying
the turn-complete flag whose per-turn input (accumulator and own fragment)
is whitespace-only resets both accumulators to empty and leaves no
trailing whitespace-only user message: a trailing empty user bubble is
removed, and an untouched trailing message is either not a user message
or carries non-whitespace text. -/
theorem turn_complete_prunes_empty_user (s : TranscriptState) (m : LiveMsg)
    (hinv : userAdjFree s.transcript)
    (htc : m.turnComplete = true)
    (hacc : trimWS s.currentInput = [])
    (hin : ∀ c, m.inputText = some c → trimWS c = []) :
    (processTranscription s m).currentInput = [] ∧
    (processTranscription s m).currentOutput = [] ∧
    noTrailingWsUser (processTranscription s m).transcript := by
  obtain ⟨inp, out, tc⟩ := m
  have htc2 : tc = true := htc
  subst htc2
  have hin2 : ∀ c, inp = some c → trimWS c = [] := hin
  have htrim1 : trimWS (inputStep s inp).currentInput = [] := inputStep_trim s inp hacc hin2
  have htrim2 : trimWS (outputStep (inputStep s inp) out).currentInput = [] := by
    rw [outputStep_currentInput]
    exact htrim1
  have hinv2 : userAdjFree (outputStep (inputStep s inp) out).transcript :=
    userAdjFree_outputStep _ out (userAdjFree_inputStep s inp hinv)
  refine ⟨rfl, rfl, ?_⟩
  show noTrailingWsUser
    (if trimWS (outputStep (inputStep s inp) out).currentInput = []
     then pruneEmptyUserIf (outputStep (inputStep s inp) out).transcript
     else (outputStep (inputStep s inp) out).transcript)
  rw [if_pos htrim2]
  exact noTrailingWsUser_pruneEmptyUserIf _ hinv2

theorem userAdjFree_pruneEmptyUserIf (l : List TranscriptMessage)
    (hinv : userAdjFree l) : userAdjFree (pruneEmptyUserIf l) := by
  cases hl : l.getLast? with
  | none =>
      simp only [pruneEmptyUserIf, hl]
      exact hinv
  | some last =>
      by_cases hcond : last.role = TRole.user ∧ trimWS last.text = []
      · simp only [pruneEmptyUserIf, hl, if_pos hcond]
        have hdecomp : l.dropLast ++ [last] = l := List.dropLast_append_getLast? last hl
        rw [userAdjFree, ← hdecomp, List.chain'_append] at hinv
        exact hinv.1
      · simp only [pruneEmptyUserIf, hl, if_neg hcond]
        exact hinv

/-- The adjacency invariant holds on every transcript reachable through
`processTranscription`, so the hypothesis of the C6 theorem is satisfied
by every state the accumulator can actually be in. -/
theorem userAdjFree_processStream (ms : List LiveMsg) (s : TranscriptState)
    (hinv : userAdjFree s.transcript) :
    userAdjFree (processStream s ms).transcript := by
  induction ms generalizing s with
  | nil => exact hinv
  | cons m ms ih =>
      refine ih (processTranscription s m) ?_
      obtain ⟨inp, out, tc⟩ := m
      have h2 : userAdjFree (outputStep (inputStep s inp) out).transcript :=
        userAdjFree_outputStep _ out (userAdjFree_inputStep s inp hinv)
      cases tc with
      | false => exact h2
      | true =>
          show userAdjFree
            (if trimWS (outputStep (inputStep s inp) out).currentInput = []
             then pruneEmptyUserIf (outputStep (inputStep s inp) out).transcript
             else (outputStep (inputStep s inp) out).transcript)
          split
          · exact userAdjFree_pruneEmptyUserIf _ h2
          · exact h2

/-- A mid-session state: a model reply followed by a whitespace-only open
user bubble, input accumulator holding that whitespace. -/
def wsDemoState : TranscriptState :=
  ⟨[⟨.model, ['h', 'i']⟩, ⟨.user, [' ']⟩], [' '], []⟩

/-- A turn-complete event carrying one more whitespace-only fragment. -/
def wsDemoMsg : LiveMsg := ⟨some [' '], none, true⟩

/-- Closed witness for the C6 theorem at a concrete whitespace-only turn. -/
theorem turn_complete_prunes_empty_user_witness :
    userAdjFree wsDemoState.transcript ∧
    wsDemoMsg.turnComplete = true ∧
    trimWS wsDemoState.currentInput = [] ∧
    ((processTranscription wsDemoState wsDemoMsg).currentInput = [] ∧
     (processTranscription wsDemoState wsDemoMsg).currentOutput = [] ∧
     noTrailingWsUser (processTranscription wsDemoState wsDemoMsg).transcript) := by
  refine ⟨?_, rfl, ?_, turn_complete_prunes_empty_user wsDemoState wsDemoMsg ?_ rfl ?_ ?_⟩
  · simp [wsDemoState, userAdjFree, List.chain'_cons]
  · decide
  · simp [wsDemoState, userAdjFree, List.chain'_cons]
  · decide
  · intro c hc
    cases hc
    decide

/-! ### C7: same-role fragments accumulate into one bubble -/

/-- A live message carrying only an input-transcription fragment. -/
def inputMsg (c : Str) : LiveMsg := ⟨some c, none, false⟩

theorem processTranscription_inputMsg (s : TranscriptState) (c : Str) (hc : c ≠ []) :
    processTranscription s (inputMsg c) = applyInput s c := by
  simp only [processTranscription, inputMsg, inputStep, outputStep, if_neg hc,
    Bool.false_eq_true, if_false]

theorem processStream_inputMsgs (frags : List Str) (hne : ∀ c ∈ frags, c ≠ [])
    (T : List TranscriptMessage) (a o : Str) :
    processStream ⟨T ++ [⟨.user, a⟩], a, o⟩ (frags.map inputMsg) =
      ⟨T ++ [⟨.user, a ++ frags.flatten⟩], a ++ frags.flatten, o⟩ := by
  induction frags generalizing a with
  | nil => simp [processStream]
  | cons c cs ih =>
      have hc : c ≠ [] := hne c (by simp)
      have hrest : ∀ x ∈ cs, x ≠ [] := fun x hx => hne x (by simp [hx])
      simp only [List.map_cons, processStream, List.foldl_cons]
      rw [processTranscription_inputMsg _ _ hc]
      have happ : applyInput ⟨T ++ [⟨.user, a⟩], a, o⟩ c =
          ⟨T ++ [⟨TRole.user, a ++ c⟩], a ++ c, o⟩ := by
        simp [applyInput, pushRole, List.getLast?_concat, List.dropLast_concat]
      rw [happ]
      have hres := ih hrest (a ++ c)
      simp only [processStream] at hres
      rw [hres, List.flatten_cons, List.append_assoc]

/-- C7: starting from a fresh turn (empty input accumulator) whose
transcript does not end in a user message, a run of nonempty input
fragments with no turn-complete in between produces exactly one new user
message whose text is the concatenation of the fragments — the trailing
message is rewritten in place and everything before it is untouched. -/
theorem same_role_fragments_merge_into_one (s : TranscriptState) (frags : List Str)
    (hcur : s.currentInput = [])
    (hlast : ∀ x, s.transcript.getLast? = some x → x.role ≠ TRole.user)
    (hne : ∀ c ∈ frags, c ≠ []) (hfr : frags ≠ []) :
    processStream s (frags.map inputMsg) =
      { s with transcript := s.transcript ++ [⟨TRole.user, frags.flatten⟩],
               currentInput := frags.flatten } := by
  match frags, hfr with
  | c :: cs, _ =>
      have hc : c ≠ [] := hne c (by simp)
      have hrest : ∀ x ∈ cs, x ≠ [] := fun x hx => hne x (by simp [hx])
      simp only [List.map_cons, processStream, List.foldl_cons]
      rw [processTranscription_inputMsg _ _ hc]
      have happ : applyInput s c =
          ⟨s.transcript ++ [⟨TRole.user, c⟩], c, s.currentOutput⟩ := by
        simp only [applyInput, hcur, List.nil_append]
        cases hl : s.transcript.getLast? with
        | none =>
            simp only [pushRole, hl]
        | some x =>
            simp only [pushRole, hl, if_neg (hlast x hl)]
      rw [happ]
      have hres := processStream_inputMsgs cs hrest s.transcript c s.currentOutput
      simp only [processStream] at hres
      rw [hres, List.flatten_cons]

/-- The two fragments of the specification example. -/
def helloFrags : List Str := [['H', 'e'], ['l', 'l', 'o']]

/-- Closed witness for the C7 theorem: feeding "He" then "llo" from the
empty state yields the single user bubble "Hello". -/
theorem same_role_fragments_merge_into_one_witness :
    (⟨[], [], []⟩ : TranscriptState).currentInput = [] ∧
    (∀ c ∈ helloFrags, c ≠ []) ∧ helloFrags ≠ [] ∧
    processStream ⟨[], [], []⟩ (helloFrags.map inputMsg) =
      { (⟨[], [], []⟩ : TranscriptState) with
        transcript := [] ++ [⟨TRole.user, helloFrags.flatten⟩],
        currentInput := helloFrags.flatten } := by
  refine ⟨rfl, by decide, by decide,
    same_role_fragments_merge_into_one ⟨[], [], []⟩ helloFrags rfl ?_ (by decide) (by decide)⟩
  intro x hx
  cases hx

/-! ## Live-session teardown (`src/index.tsx`: the `useEffect` cleanup of
`LiveTutorView`)

The cleanup closure sets the cancellation flag, closes the session if the
promise ref was ever populated, stops all microphone tracks through
optional chaining, disconnects the source and processor nodes behind
`if` guards, and closes both audio contexts through optional chaining.
Handles that startup never acquired are `none`; touching a `none` handle
without a guard would be a null-reference fault, modelled by `deref`. -/

inductive SessionHandle where
  | active | closed
deriving DecidableEq, Repr

inductive TrackState where
  | live | stopped
deriving DecidableEq, Repr

inductive NodeState where
  | connected | disconnected
deriving DecidableEq, Repr

inductive CtxState where
  | running | closed
deriving DecidableEq, Repr

structure LiveResources where
  session : Option SessionHandle
  stream : Option (List TrackState)
  sourceNode : Option NodeState
  processorNode : Option NodeState
  inputCtx : Option CtxState
  outputCtx : Option CtxState
  isCancelled : Bool
deriving DecidableEq, Repr

inductive TeardownFault where
  | nullDeref
deriving DecidableEq, Repr

/-- Accessing a handle: a null handle faults. -/
def deref (o : Option α) : Except TeardownFault α :=
  match o with
  | some a => .ok a
  | none => .error .nullDeref

/-- `session.close()`: idempotent per the transport contract. -/
def closeSession (_ : SessionHandle) : SessionHandle := .closed

/-- `track.stop()`: a no-op on an already stopped track. -/
def stopTrack (_ : TrackState) : TrackState := .stopped

/-- `node.disconnect()`: never throws, idempotent. -/
def disconnectNode (_ : NodeState) : NodeState := .disconnected

/-- `ctx.close()`: the context ends up closed (a second close only
rejects the returned promise, which the cleanup does not await). -/
def closeCtx (_ : CtxState) : CtxState := .closed

/-- The cleanup closure, step for step.  `session` and the two audio
nodes sit behind `if (...)` truthiness guards and are then dereferenced;
the stream and the contexts are reached through optional chaining. -/
def teardown (r : LiveResources) : Except TeardownFault LiveResources := do
  let session ←
    if r.session.isSome then do
      let s ← deref r.session
      pure (some (closeSession s))
    else pure r.session
  let stream :=
    match r.stream with
    | some ts => some (ts.map stopTrack)
    | none => none
  let sourceNode ←
    if r.sourceNode.isSome then do
      let n ← deref r.sourceNode
      pure (some (disconnectNode n))
    else pure r.sourceNode
  let processorNode ←
    if r.processorNode.isSome then do
      let n ← deref r.processorNode
      pure (some (disconnectNode n))
    else pure r.processorNode
  let inputCtx := r.inputCtx.map closeCtx
  let outputCtx := r.outputCtx.map closeCtx
  pure ⟨session, stream, sourceNode, processorNode, inputCtx, outputCtx, true⟩

/-- Every handle that exists is in its released state. -/
def AllReleased (r : LiveResources) : Prop :=
  (∀ s, r.session = some s → s = .closed) ∧
  (∀ ts, r.stream = some ts → ∀ t ∈ ts, t = .stopped) ∧
  (∀ n, r.sourceNode = some n → n = .disconnected) ∧
  (∀ n, r.processorNode = some n → n = .disconnected) ∧
  (∀ c, r.inputCtx = some c → c = .closed) ∧
  (∀ c, r.outputCtx = some c → c = .closed)

/-- C8: teardown is total on every partial-startup state (no
null-reference fault, every absent handle is skipped and stays absent),
it releases every acquired resource, and running it a second time
succeeds and changes nothing (no double release). -/
theorem teardown_idempotent_and_safe (r : LiveResources) :
    ∃ r2, teardown r = .ok r2 ∧
      teardown r2 = .ok r2 ∧
      AllReleased r2 ∧
      r2.session.isSome = r.session.isSome ∧
      r2.stream.isSome = r.stream.isSome ∧
      r2.sourceNode.isSome = r.sourceNode.isSome ∧
      r2.processorNode.isSome = r.processorNode.isSome ∧
      r2.inputCtx.isSome = r.inputCtx.isSome ∧
      r2.outputCtx.isSome = r.outputCtx.isSome := by
  obtain ⟨os, ost, osn, opn, oic, ooc, flag⟩ := r
  cases os <;> cases ost <;> cases osn <;> cases opn <;> cases oic <;> cases ooc <;>
    exact ⟨_, rfl,
      by simp [teardown, deref, closeSession, stopTrack, disconnectNode, closeCtx,
        List.map_map, Function.comp, pure, Except.pure, bind, Except.bind],
      by simp [AllReleased, closeSession, stopTrack, disconnectNode, closeCtx,
        List.mem_map]
      , rfl, rfl, rfl, rfl, rfl, rfl⟩

/-! ## Notes generation retry loop (`src/index.tsx`:
`apiGenerateStudyNotes`, server-side path)

`MAX_RETRIES = 3`.  Each attempt either throws or returns text; text is
accepted only when its trimmed length exceeds 20.  A thrown non-final
attempt sleeps `500 * (i + 1)` ms before the next one; a thrown final
attempt rethrows; a short response retries immediately with no sleep;
after the loop a dedicated error is thrown.  An attempt schedule is a
function from the attempt index to its result; the model returns the
outcome, the list of sleep durations, and the number of attempts used. -/

inductive AttemptResult where
  | thrown
  | returned (text : Str)
deriving DecidableEq, Repr

inductive NotesError where
  | attemptThrew
  | invalidAfterRetries
deriving DecidableEq, Repr

/-- `text && text.trim().length > 20`. -/
def validNotes (t : Str) : Bool := 20 < (trimWS t).length

def notesMaxRetries : ℕ := 3

/-- The retry loop body; `fuel` counts the remaining iterations of
`for (let i = 0; i < MAX_RETRIES; i++)`, `i` is the current index. -/
def notesLoop (outs : ℕ → AttemptResult) : ℕ → ℕ → Except NotesError Str × List ℕ × ℕ
  | 0, i => (.error .invalidAfterRetries, [], i)
  | fuel + 1, i =>
      match outs i with
      | .returned t =>
          if validNotes t then (.ok t, [], i + 1)
          else notesLoop outs fuel (i + 1)
      | .thrown =>
          if i = notesMaxRetries - 1 then (.error .attemptThrew, [], i + 1)
          else
            let r := notesLoop outs fuel (i + 1)
            (r.1, 500 * (i + 1) :: r.2.1, r.2.2)

/-- The whole server-side retry path of `apiGenerateStudyNotes`. -/
def apiGenerateStudyNotesRetry (outs : ℕ → AttemptResult) :
    Except NotesError Str × List ℕ × ℕ :=
  notesLoop outs notesMaxRetries 0

/-- An attempt the loop must not accept: it threw, or its text trims to
at most 20 characters. -/
def FailedAttempt : AttemptResult → Prop
  | .thrown => True
  | .returned t => validNotes t = false

theorem notesLoop_used_le (outs : ℕ → AttemptResult) (fuel i : ℕ) :
    (notesLoop outs fuel i).2.2 ≤ i + fuel := by
  induction fuel generalizing i with
  | zero => simp [notesLoop]
  | succ fuel ih =>
      simp only [notesLoop]
      cases outs i with
      | returned t =>
          by_cases hv : validNotes t
          · simp only [if_pos hv]
            omega
          · simp only [if_neg hv]
            have := ih (i + 1)
            omega
      | thrown =>
          by_cases hl : i = notesMaxRetries - 1
          · simp only [if_pos hl]
            omega
          · simp only [if_neg hl]
            have := ih (i + 1)
            omega

theorem notesLoop_ok_valid (outs : ℕ → AttemptResult) (fuel i : ℕ) (t : Str)
    (h : (notesLoop outs fuel i).1 = .ok t) : validNotes t = true := by
  induction fuel generalizing i with
  | zero => simp [notesLoop] at h
  | succ fuel ih =>
      cases hout : outs i with
      | returned u =>
          by_cases hv : validNotes u = true
          · simp [notesLoop, hout, hv] at h
            rw [← h]
            exact hv
          · simp [notesLoop, hout, hv] at h
            exact ih (i + 1) h
      | thrown =>
          by_cases hl : i = notesMaxRetries - 1
          · subst hl
            simp [notesLoop, hout] at h
          · simp [notesLoop, hout, hl] at h
            exact ih (i + 1) h

theorem notesLoop_delays (outs : ℕ → AttemptResult) (fuel i : ℕ) :
    ∀ d ∈ (notesLoop outs fuel i).2.1,
      ∃ k, i ≤ k ∧ k < i + fuel ∧ k ≠ notesMaxRetries - 1 ∧
        outs k = .thrown ∧ d = 500 * (k + 1) := by
  induction fuel generalizing i with
  | zero => simp [notesLoop]
  | succ fuel ih =>
      intro d hd
      cases hout : outs i with
      | returned u =>
          by_cases hv : validNotes u = true
          · simp [notesLoop, hout, hv] at hd
          · simp [notesLoop, hout, hv] at hd
            obtain ⟨k, hk1, hk2, hk3, hk4, hk5⟩ := ih (i + 1) d hd
            exact ⟨k, by omega, by omega, hk3, hk4, hk5⟩
      | thrown =>
          by_cases hl : i = notesMaxRetries - 1
          · subst hl
            simp [notesLoop, hout] at hd
          · simp [notesLoop, hout, hl] at hd
            rcases hd with rfl | hd2
            · exact ⟨i, le_refl i, by omega, hl, hout, rfl⟩
            · obtain ⟨k, hk1, hk2, hk3, hk4, hk5⟩ := ih (i + 1) d hd2
              exact ⟨k, by omega, by omega, hk3, hk4, hk5⟩

theorem notesLoop_all_failed (outs : ℕ → AttemptResult) (fuel i : ℕ)
    (hall : ∀ k, i ≤ k → k < i + fuel → FailedAttempt (outs k)) :
    ∃ e, (notesLoop outs fuel i).1 = .error e := by
  induction fuel generalizing i with
  | zero => exact ⟨.invalidAfterRetries, rfl⟩
  | succ fuel ih =>
      cases hout : outs i with
      | returned u =>
          have hf : FailedAttempt (outs i) := hall i (le_refl i) (by omega)
          rw [hout] at hf
          have hv : validNotes u = false := hf
          simp only [notesLoop, hout, hv, Bool.false_eq_true, if_false]
          exact ih (i + 1) (fun k hk1 hk2 => hall k (by omega) (by omega))
      | thrown =>
          by_cases hl : i = notesMaxRetries - 1
          · simp only [notesLoop, hout, if_pos hl]
            exact ⟨.attemptThrew, rfl⟩
          · simp only [notesLoop, hout, if_neg hl]
            obtain ⟨e, he⟩ := ih (i + 1) (fun k hk1 hk2 => hall k (by omega) (by omega))
            exact ⟨e, he⟩

/-- C10 (amended): notes generation makes at most 3 attempts; a response
whose trimmed text has 20 or fewer characters (in particular a
whitespace-only one) is never accepted; every sleep the loop takes is the
linear backoff `500 * (k + 1)` after a non-final thrown attempt `k` — a
short response retries immediately with no backoff — and when all three
attempts fail the call throws (the rethrown last error, or the dedicated
invalid-response error). -/
theorem notes_retry_behaviour (outs : ℕ → AttemptResult) :
    (apiGenerateStudyNotesRetry outs).2.2 ≤ 3 ∧
    (∀ t, (apiGenerateStudyNotesRetry outs).1 = .ok t → validNotes t = true) ∧
    (∀ d ∈ (apiGenerateStudyNotesRetry outs).2.1,
      ∃ k, k < 3 ∧ k ≠ 2 ∧ outs k = .thrown ∧ d = 500 * (k + 1)) ∧
    ((∀ k, k < 3 → FailedAttempt (outs k)) →
      ∃ e, (apiGenerateStudyNotesRetry outs).1 = .error e) := by
  refine ⟨notesLoop_used_le outs notesMaxRetries 0,
    fun t h => notesLoop_ok_valid outs notesMaxRetries 0 t h, ?_, ?_⟩
  · intro d hd
    obtain ⟨k, _, hk2, hk3, hk4, hk5⟩ := notesLoop_delays outs notesMaxRetries 0 d hd
    exact ⟨k, hk2, hk3, hk4, hk5⟩
  · intro hall
    exact notesLoop_all_failed outs notesMaxRetries 0
      (fun k _ hk2 => hall k hk2)

/-- C10 counterexample to the claim as stated: three consecutive short
(trivially invalid) responses use all 3 attempts and throw, but the loop
sleeps zero times — there is no backoff of any kind between these
attempts, because the `setTimeout` sits only in the `catch` branch. -/
theorem notes_retry_no_backoff_on_short :
    (apiGenerateStudyNotesRetry (fun _ => .returned ['h', 'i'])).2.2 = 3 ∧
    (apiGenerateStudyNotesRetry (fun _ => .returned ['h', 'i'])).2.1 = [] ∧
    (apiGenerateStudyNotesRetry (fun _ => .returned ['h', 'i'])).1 =
      .error .invalidAfterRetries := by
  exact ⟨rfl, rfl, rfl⟩

/-- Closed witness for the C10 theorem on the all-thrown schedule: three
attempts, and the hypothesis that every attempt failed is discharged, so
the call throws. -/
theorem notes_retry_behaviour_witness :
    (∀ k, k < 3 → FailedAttempt ((fun _ => AttemptResult.thrown) k)) ∧
    (apiGenerateStudyNotesRetry (fun _ => AttemptResult.thrown)).2.2 ≤ 3 ∧
    (∃ e, (apiGenerateStudyNotesRetry (fun _ => AttemptResult.thrown)).1 = .error e) := by
  have h := notes_retry_behaviour (fun _ => AttemptResult.thrown)
  exact ⟨fun k _ => trivial, h.1, h.2.2.2 (fun k _ => trivial)⟩

end CrammAI
